import Mathlib

/-!
Shallow embedding of `src/ReflexDACExample_4_1V_Version.ino` (Anabit Reflex DAC
example sketch).  Float arithmetic of the sketch is modelled exactly over `ℚ`
(the quantities involved are small enough that single-precision rounding never
crosses a truncation boundary at the points the theorems evaluate), and the
transcendental `sinf` of the lookup-table builder is modelled over `ℝ` with
`Real.sin`.  Machine integers are modelled as `ℕ`/`ℤ` with explicit `% 2^w`
where a width conversion happens in the source.
-/

/-- Constant `DAC_14_BIT` (line 33 of the sketch): `#define DAC_14_BIT 16383`. -/
def DAC_14_BIT : ℕ := 16383

/-- Constant `REF_VOLT` (line 34): `#define REF_VOLT (float)4.096`, modelled exactly. -/
def REF_VOLT : ℚ := 4096 / 1000

/-- Constant `TABLE_SIZE` (line 48): samples per sine period. -/
def TABLE_SIZE : ℕ := 16

/-- C-style cast of a real-valued quantity to a signed integer: truncation
toward zero, as `(int32_t)(...)` does on line 173 of the sketch. -/
def cTruncQ (q : ℚ) : ℤ := if 0 ≤ q then ⌊q⌋ else ⌈q⌉

/-- Embedding of `dacBipolarVoltageToCode` (lines 159-179).  The `uint8_t bits`
parameter is modelled by reducing the argument `% 256` on entry, which is what
the implicit conversion at a call site does.  The float computation is carried
out exactly in `ℚ`. -/
def dacBipolarVoltageToCode (bits0 : ℕ) (vref vout0 : ℚ) : ℕ :=
  let bits1 := bits0 % 256
  if bits1 = 0 then 0
  else
    let bits := if bits1 > 14 then 14 else bits1
    let VREF : ℚ := if vref ≥ 0 then vref else -vref
    if VREF = 0 then 0
    else
      let vout1 := if vout0 > VREF then VREF else vout0
      let vout := if vout1 < -VREF then -VREF else vout1
      let halfScale : ℕ := 2 ^ (bits - 1)
      let code_f : ℚ := (vout / VREF) * (halfScale : ℚ) + (halfScale : ℚ)
      let code_i : ℤ := cTruncQ (code_f + 1/2)
      let maxCode : ℤ := 2 ^ bits - 1
      let code_i2 : ℤ := if code_i < 0 then 0 else if code_i > maxCode then maxCode else code_i
      code_i2.toNat

/-- Embedding of `buildLUT` (lines 146-154): entry `i` of the global `sineLUT`
after `buildLUT tableSize bitsC` has run.  `sinf` is modelled by `Real.sin`;
the `uint16_t` cast of the non-negative intermediate value is truncation
(floor), and `& 0x3FFF` is `% 16384`. -/
noncomputable def buildLUT (tableSize bitsC : ℕ) (i : ℕ) : ℕ :=
  (⌊(Real.sin (2 * Real.pi * i / tableSize) * (1/2) + 1/2) * (bitsC : ℝ) + 1/2⌋).toNat % 16384

/-- The global `sineLUT` as initialized by `setup()` in sine-wave mode:
`buildLUT(TABLE_SIZE, DAC_14_BIT)`. -/
noncomputable def sineLUT (i : ℕ) : ℕ := buildLUT TABLE_SIZE DAC_14_BIT i

/-- One `loop()` iteration's update of `tableCounter` in sine-wave mode
(lines 89-90): increment, then reset to 0 when it reaches `TABLE_SIZE`. -/
def sineStep (c : ℕ) : ℕ := if c + 1 ≥ TABLE_SIZE then 0 else c + 1

/-- Codes emitted by one call of `fullRangeTest cntUp bits` (lines 108-123),
in order.  This models the terminating case `bits ≤ 65534` of the `uint16_t`
loop (the loop counter `j` runs from `0` to `bits` inclusive; the bound
`bits + 1` is computed after integer promotion). -/
def fullRangeCodes (cntUp : Bool) (bits : ℕ) : List ℕ :=
  if cntUp then List.range (bits + 1)
  else (List.range (bits + 1)).map (fun j => bits - j)

/-- Codes emitted after `n` iterations of the drive `loop()` in full-range
mode: each iteration calls `fullRangeTest(true, DAC_14_BIT)` once. -/
def rampStream (bits n : ℕ) : List ℕ :=
  (List.replicate n (fullRangeCodes true bits)).flatten

/-- The `val` flag of `quickChangeTest` (lines 128-142) at the start of
iteration `n` of its `while(1)` loop: initialized `false`, negated each
iteration. -/
def quickChangeVal : ℕ → Bool
  | 0 => false
  | n + 1 => !quickChangeVal n

/-- Code transferred by iteration `n` of `quickChangeTest bits`: `bits` when
`val` is set, otherwise `0`. -/
def quickChangeEmit (bits n : ℕ) : ℕ := if quickChangeVal n then bits else 0

/-- Characterization of the converter on sanitized inputs: for an in-range
resolution, a positive reference and a voltage inside `[-vref, vref]`, every
guard and clamp of `dacBipolarVoltageToCode` is inert and the result is the
rounded linear map, capped at full scale. -/
lemma dac_eval (bits : ℕ) (vref vout : ℚ) (h1 : 0 < bits) (h2 : bits ≤ 14)
    (hv : 0 < vref) (hlo : -vref ≤ vout) (hhi : vout ≤ vref) :
    dacBipolarVoltageToCode bits vref vout =
      (min ((2 : ℤ) ^ bits - 1)
        ⌊vout / vref * ((2 ^ (bits - 1) : ℕ) : ℚ) + ((2 ^ (bits - 1) : ℕ) : ℚ) + 1/2⌋).toNat := by
  have hmod : bits % 256 = bits := Nat.mod_eq_of_lt (by omega)
  have hne : ¬ (bits % 256 = 0) := by omega
  have hH : (0 : ℚ) ≤ ((2 ^ (bits - 1) : ℕ) : ℚ) := by positivity
  have hdiv : (-1 : ℚ) ≤ vout / vref := by
    rw [le_div_iff₀ hv]; linarith
  have hcf : (0 : ℚ) ≤ vout / vref * ((2 ^ (bits - 1) : ℕ) : ℚ) + ((2 ^ (bits - 1) : ℕ) : ℚ) + 1/2 := by
    nlinarith
  have hVREF : (if vref ≥ 0 then vref else -vref) = vref := if_pos (le_of_lt hv)
  have hclamp : (if bits > 14 then 14 else bits) = bits := if_neg (by omega)
  have hvout1 : (if vout > vref then vref else vout) = vout := if_neg (not_lt.mpr hhi)
  have hvout2 : (if vout < -vref then -vref else vout) = vout := if_neg (not_lt.mpr hlo)
  simp only [dacBipolarVoltageToCode, cTruncQ, hmod]
  rw [if_neg (by omega : ¬ bits = 0), hVREF, if_neg hv.ne', hclamp, hvout1, hvout2,
    if_pos hcf, if_neg (not_lt.mpr (Int.floor_nonneg.mpr hcf))]
  rcases le_or_lt ⌊vout / vref * ((2 ^ (bits - 1) : ℕ) : ℚ) + ((2 ^ (bits - 1) : ℕ) : ℚ) + 1/2⌋
      ((2 : ℤ) ^ bits - 1) with h | h
  · rw [if_neg (not_lt.mpr h), min_eq_right h]
  · rw [if_pos h, min_eq_left h.le]

/-- Result of the converter at the program's single-value call, evaluated
exactly: `(-1/4.096) * 8192 + 8192 = 6192`, rounding to code 6192. -/
lemma dac_minus_one : dacBipolarVoltageToCode 14 REF_VOLT (-1) = 6192 := by
  norm_num [dacBipolarVoltageToCode, cTruncQ, REF_VOLT]
  rfl

/-- C1: the claim asserts that for `bits = 14`, `vref = 4.096`, `vout = -1.0`
the converter returns 6208.  It does not: the code returned is 6192 (and
indeed `(-1/4.096) * 8192 + 8192 = 6192`, not 6208). -/
theorem C1_end_to_end_counterexample :
    dacBipolarVoltageToCode 14 REF_VOLT (-1) ≠ 6208 := by
  rw [dac_minus_one]; decide

/-- C1 (amended): for `bits = 14`, `vref = 4.096`, `vout = -1.0` the converter
returns 6192, which is exactly `round((-1.0/4.096) * 8192 + 8192)`: the
real-valued expression equals 6192, so rounding is the identity on it. -/
theorem C1_end_to_end_amended :
    dacBipolarVoltageToCode 14 REF_VOLT (-1) = 6192 ∧
      (-1 : ℚ) / REF_VOLT * 8192 + 8192 = 6192 := by
  refine ⟨dac_minus_one, ?_⟩
  norm_num [REF_VOLT]

/-- C2: the claim asserts that a zero *or negative* reference makes the
converter return code 0.  A negative reference does not: it is sign-normalized
to its absolute value and conversion proceeds, e.g. at `bits = 14`,
`vref = -4.096`, `vout = 4.096` the converter returns full scale 16383 ≠ 0. -/
theorem C2_negative_vref_counterexample :
    dacBipolarVoltageToCode 14 (-REF_VOLT) REF_VOLT = 16383 ∧ (16383 : ℕ) ≠ 0 := by
  constructor
  · norm_num [dacBipolarVoltageToCode, cTruncQ, REF_VOLT]
    rfl
  · decide

/-- C2 (amended): for `bits` in `(0, 14]` and any `vout`, a *zero* reference
magnitude yields code 0, while a *negative* reference is sign-normalized to
its absolute value, so the converter behaves exactly as with `|vref|`. -/
theorem C2_degenerate_vref_amended (bits : ℕ) (vout : ℚ)
    (h1 : 0 < bits) (h2 : bits ≤ 14) :
    dacBipolarVoltageToCode bits 0 vout = 0 ∧
      ∀ vref : ℚ, vref < 0 →
        dacBipolarVoltageToCode bits vref vout = dacBipolarVoltageToCode bits (-vref) vout := by
  have hne : ¬ (bits % 256 = 0) := by
    have := Nat.mod_eq_of_lt (show bits < 256 by omega); omega
  constructor
  · simp only [dacBipolarVoltageToCode]
    rw [if_neg hne]
    norm_num
  · intro vref hneg
    simp only [dacBipolarVoltageToCode]
    rw [if_neg hne, if_neg hne, if_neg (not_le.mpr hneg),
      if_pos (by linarith : (0:ℚ) ≤ -vref)]

/-- Witness for C2 (amended) at `bits = 14`, `vout = 1`. -/
theorem C2_degenerate_vref_amended_witness :
    0 < 14 ∧ 14 ≤ 14 ∧
      (dacBipolarVoltageToCode 14 0 1 = 0 ∧
        ∀ vref : ℚ, vref < 0 →
          dacBipolarVoltageToCode 14 vref 1 = dacBipolarVoltageToCode 14 (-vref) 1) :=
  ⟨by decide, by decide, C2_degenerate_vref_amended 14 1 (by decide) (by decide)⟩

/-- C4: for every resolution in `(0, 14]` and positive reference, the
converter maps `0 V` to mid-scale `2^(bits-1)`, `+vref` to full scale
`2^bits - 1`, and `-vref` to `0`. -/
theorem C4_endpoints (bits : ℕ) (vref : ℚ) (h1 : 0 < bits) (h2 : bits ≤ 14)
    (hv : 0 < vref) :
    dacBipolarVoltageToCode bits vref 0 = 2 ^ (bits - 1) ∧
      dacBipolarVoltageToCode bits vref vref = 2 ^ bits - 1 ∧
      dacBipolarVoltageToCode bits vref (-vref) = 0 := by
  have hpow : (2 : ℕ) ^ (bits - 1) < 2 ^ bits := Nat.pow_lt_pow_right (by omega) (by omega)
  have hcast : ((2 : ℤ)) ^ bits = ((2 ^ bits : ℕ) : ℤ) := by push_cast; ring
  have hcastH : ((2 ^ (bits - 1) : ℕ) : ℚ) = (((2 ^ (bits - 1) : ℕ) : ℤ) : ℚ) := by push_cast; ring
  refine ⟨?_, ?_, ?_⟩
  · rw [dac_eval bits vref 0 h1 h2 hv (by linarith) (by linarith), zero_div, zero_mul, zero_add]
    have hfl : ⌊((2 ^ (bits - 1) : ℕ) : ℚ) + 1/2⌋ = ((2 ^ (bits - 1) : ℕ) : ℤ) := by
      rw [hcastH, Int.floor_int_add]
      norm_num
    have hle : ((2 ^ (bits - 1) : ℕ) : ℤ) ≤ (2 : ℤ) ^ bits - 1 := by rw [hcast]; omega
    rw [hfl, min_eq_right hle, Int.toNat_natCast]
  · rw [dac_eval bits vref vref h1 h2 hv (by linarith) le_rfl, div_self hv.ne']
    have hHH : (1 : ℚ) * ((2 ^ (bits - 1) : ℕ) : ℚ) + ((2 ^ (bits - 1) : ℕ) : ℚ) + 1/2 =
        ((2 ^ bits : ℕ) : ℚ) + 1/2 := by
      have e : (2 : ℕ) ^ (bits - 1) + 2 ^ (bits - 1) = 2 ^ bits := by
        calc (2 : ℕ) ^ (bits - 1) + 2 ^ (bits - 1) = 2 ^ (bits - 1) * 2 := by ring
          _ = 2 ^ (bits - 1 + 1) := (pow_succ 2 (bits - 1)).symm
          _ = 2 ^ bits := by rw [Nat.sub_add_cancel h1]
      rw [one_mul, ← e]
      push_cast
      ring
    have hfl : ⌊((2 ^ bits : ℕ) : ℚ) + 1/2⌋ = ((2 ^ bits : ℕ) : ℤ) := by
      rw [show ((2 ^ bits : ℕ) : ℚ) = (((2 ^ bits : ℕ) : ℤ) : ℚ) by push_cast; ring,
        Int.floor_int_add]
      norm_num
    rw [hHH, hfl, min_eq_left (by rw [hcast]; omega), hcast]
    omega
  · rw [dac_eval bits vref (-vref) h1 h2 hv le_rfl (by linarith)]
    have harg : -vref / vref * ((2 ^ (bits - 1) : ℕ) : ℚ) + ((2 ^ (bits - 1) : ℕ) : ℚ) + 1/2 =
        1/2 := by
      rw [neg_div, div_self hv.ne']
      ring
    have hfl : ⌊(1/2 : ℚ)⌋ = 0 := by norm_num
    have hnn : (0 : ℤ) ≤ (2 : ℤ) ^ bits - 1 := by
      have : (0 : ℕ) < 2 ^ bits := by positivity
      rw [hcast]; omega
    rw [harg, hfl, min_eq_right hnn]
    rfl

/-- Witness for C4 at `bits = 14`, `vref = REF_VOLT`. -/
theorem C4_endpoints_witness :
    (0 < 14 ∧ 14 ≤ 14 ∧ (0 : ℚ) < REF_VOLT) ∧
      (dacBipolarVoltageToCode 14 REF_VOLT 0 = 2 ^ (14 - 1) ∧
        dacBipolarVoltageToCode 14 REF_VOLT REF_VOLT = 2 ^ 14 - 1 ∧
        dacBipolarVoltageToCode 14 REF_VOLT (-REF_VOLT) = 0) :=
  ⟨⟨by decide, by decide, by norm_num [REF_VOLT]⟩,
    C4_endpoints 14 REF_VOLT (by decide) (by decide) (by norm_num [REF_VOLT])⟩

/-- C5: on `(0, 14]`-bit resolution with a positive reference, the converter
is monotone over voltages inside `[-vref, vref]`. -/
theorem C5_monotone (bits : ℕ) (vref v1 v2 : ℚ) (h1 : 0 < bits) (h2 : bits ≤ 14)
    (hv : 0 < vref) (hlo : -vref ≤ v1) (h12 : v1 < v2) (hhi : v2 ≤ vref) :
    dacBipolarVoltageToCode bits vref v1 ≤ dacBipolarVoltageToCode bits vref v2 := by
  rw [dac_eval bits vref v1 h1 h2 hv hlo (by linarith),
    dac_eval bits vref v2 h1 h2 hv (by linarith) hhi]
  apply Int.toNat_le_toNat
  apply min_le_min le_rfl
  apply Int.floor_le_floor
  have hH : (0 : ℚ) ≤ ((2 ^ (bits - 1) : ℕ) : ℚ) := by positivity
  have hq : v1 / vref ≤ v2 / vref := (div_le_div_iff_of_pos_right hv).mpr h12.le
  nlinarith

/-- Witness for C5 at `bits = 14`, `vref = REF_VOLT`, `v1 = -1`, `v2 = 1`. -/
theorem C5_monotone_witness :
    0 < 14 ∧ 14 ≤ 14 ∧ (0 : ℚ) < REF_VOLT ∧ -REF_VOLT ≤ (-1 : ℚ) ∧ (-1 : ℚ) < 1 ∧
      (1 : ℚ) ≤ REF_VOLT ∧
      dacBipolarVoltageToCode 14 REF_VOLT (-1) ≤ dacBipolarVoltageToCode 14 REF_VOLT 1 :=
  ⟨by decide, by decide, by norm_num [REF_VOLT], by norm_num [REF_VOLT], by norm_num,
    by norm_num [REF_VOLT],
    C5_monotone 14 REF_VOLT (-1) 1 (by decide) (by decide) (by norm_num [REF_VOLT])
      (by norm_num [REF_VOLT]) (by norm_num) (by norm_num [REF_VOLT])⟩

/-- C10: the `uint8_t bits` parameter truncates the argument mod 256, and any
truncated value of at least 14 is then clamped to 14, so such calls agree with
`bits = 14` for every reference and voltage.  The sketch's only call passes
`DAC_14_BIT = 16383`, which truncates to 255 and clamps to 14. -/
theorem C10_uint8_bits (b : ℕ) (vref vout : ℚ) (hb : 14 ≤ b % 256) :
    dacBipolarVoltageToCode b vref vout = dacBipolarVoltageToCode 14 vref vout := by
  have hL : (if b % 256 > 14 then 14 else b % 256) = 14 := by
    rcases Nat.lt_or_ge 14 (b % 256) with h | h
    · rw [if_pos h]
    · rw [if_neg (not_lt.mpr h)]
      omega
  simp only [dacBipolarVoltageToCode]
  rw [if_neg (by omega : ¬ b % 256 = 0), hL]
  norm_num

/-- Witness for C10 at the sketch's call site: `b = 16383`, `vref = REF_VOLT`,
`vout = -1`. -/
theorem C10_uint8_bits_witness :
    14 ≤ 16383 % 256 ∧
      dacBipolarVoltageToCode 16383 REF_VOLT (-1) = dacBipolarVoltageToCode 14 REF_VOLT (-1) :=
  ⟨by decide, C10_uint8_bits 16383 REF_VOLT (-1) (by decide)⟩

/-- The final clamp of the converter, applied to any rounded value and any
in-range full-scale bound, lands in `[0, 16383]` after the `uint16_t` cast. -/
lemma clamp_toNat_le (c M : ℤ) (hM0 : 0 ≤ M) (hM : M ≤ 16383) :
    (if c < 0 then 0 else if c > M then M else c).toNat ≤ 16383 := by
  rcases lt_or_ge c 0 with h | h
  · rw [if_pos h]
    omega
  · rw [if_neg (not_lt.mpr h)]
    rcases le_or_lt c M with h2 | h2
    · rw [if_neg (not_lt.mpr h2)]
      omega
    · rw [if_pos h2]
      omega

/-- The converter's output never exceeds `0x3FFF`, whatever the arguments. -/
lemma dac_le_16383 (bits : ℕ) (vref vout : ℚ) :
    dacBipolarVoltageToCode bits vref vout ≤ 16383 := by
  have hB14 : (if bits % 256 > 14 then 14 else bits % 256) ≤ 14 := by split <;> omega
  have hMpos : (0 : ℤ) ≤ 2 ^ (if bits % 256 > 14 then 14 else bits % 256) - 1 := by
    have : (0 : ℤ) < 2 ^ (if bits % 256 > 14 then 14 else bits % 256) := by positivity
    linarith
  have hMle : (2 : ℤ) ^ (if bits % 256 > 14 then 14 else bits % 256) - 1 ≤ 16383 := by
    have h3 : (2 : ℤ) ^ (if bits % 256 > 14 then 14 else bits % 256) ≤ 2 ^ 14 :=
      pow_le_pow_right₀ (by norm_num) hB14
    rw [show (2 : ℤ) ^ 14 = 16384 from by norm_num] at h3
    linarith
  simp only [dacBipolarVoltageToCode, cTruncQ]
  by_cases h0 : bits % 256 = 0
  · rw [if_pos h0]
    omega
  · rw [if_neg h0]
    by_cases hV : (if vref ≥ 0 then vref else -vref) = 0
    · rw [if_pos hV]
      omega
    · rw [if_neg hV]
      exact clamp_toNat_le _ _ hMpos hMle

/-- Each code a full-range ramp call emits is at most the `bits` argument. -/
lemma mem_fullRangeCodes_le (cntUp : Bool) (b x : ℕ) (hx : x ∈ fullRangeCodes cntUp b) :
    x ≤ b := by
  cases cntUp <;> simp [fullRangeCodes] at hx
  · obtain ⟨j, _, hj⟩ := hx
    omega
  · omega

/-- Positional form of the previous bound, stated with a default of 0 so that
no membership hypothesis is needed. -/
lemma getD_fullRange_le (cntUp : Bool) (j : ℕ) :
    (fullRangeCodes cntUp DAC_14_BIT).getD j 0 ≤ 16383 := by
  rcases lt_or_ge j (fullRangeCodes cntUp DAC_14_BIT).length with h | h
  · rw [List.getD_eq_getElem _ 0 h]
    have := mem_fullRangeCodes_le cntUp DAC_14_BIT _
      (List.getElem_mem h : (fullRangeCodes cntUp DAC_14_BIT)[j] ∈ _)
    simpa [DAC_14_BIT] using this
  · rw [List.getD_eq_default _ 0 h]
    omega

/-- C3: every 16-bit value any pattern generator hands to `SPI.transfer16`
has its top two bits clear, i.e. is at most `0x3FFF = 16383`: the converter's
output (single-value mode), every ramp code (both directions of
`fullRangeTest(_, DAC_14_BIT)`), every sine-table entry, and every
quick-change code. -/
theorem C3_bus_codes_fit :
    (∀ bits : ℕ, ∀ vref vout : ℚ, dacBipolarVoltageToCode bits vref vout ≤ 16383) ∧
      (∀ cntUp : Bool, ∀ j : ℕ, (fullRangeCodes cntUp DAC_14_BIT).getD j 0 ≤ 16383) ∧
      (∀ i : ℕ, sineLUT i ≤ 16383) ∧
      (∀ n : ℕ, quickChangeEmit DAC_14_BIT n ≤ 16383) := by
  refine ⟨dac_le_16383, getD_fullRange_le, ?_, ?_⟩
  · intro i
    have : sineLUT i < 16384 := Nat.mod_lt _ (by norm_num)
    omega
  · intro n
    simp only [quickChangeEmit, DAC_14_BIT]
    split
    · omega
    · omega

/-- C6: a call `fullRangeTest(true, b)` emits exactly `b + 1` codes, strictly
increasing from 0 to `b`; a call `fullRangeTest(false, b)` emits exactly
`b + 1` codes, strictly decreasing from `b` to 0; and each further iteration
of the drive loop appends one more identical ascending cycle.  The bound on
`b` is the set of argument values for which the `uint16_t` counter loop
terminates (the sketch always passes `DAC_14_BIT = 16383`). -/
theorem C6_full_range_cycle (b : ℕ) (hb : b ≤ 65534) :
    ((fullRangeCodes true b).length = b + 1 ∧
      (fullRangeCodes true b).Chain' (· < ·) ∧
      (fullRangeCodes true b).head? = some 0 ∧
      (fullRangeCodes true b).getLast? = some b) ∧
    ((fullRangeCodes false b).length = b + 1 ∧
      (fullRangeCodes false b).Chain' (· > ·) ∧
      (fullRangeCodes false b).head? = some b ∧
      (fullRangeCodes false b).getLast? = some 0) ∧
    (∀ n : ℕ, rampStream b (n + 1) = rampStream b n ++ fullRangeCodes true b) := by
  have hup : fullRangeCodes true b = List.range (b + 1) := by simp [fullRangeCodes]
  have hdn : fullRangeCodes false b = (List.range (b + 1)).map (fun j => b - j) := by
    simp [fullRangeCodes]
  refine ⟨⟨?_, ?_, ?_, ?_⟩, ⟨?_, ?_, ?_, ?_⟩, ?_⟩
  · rw [hup, List.length_range]
  · rw [hup]
    exact (List.chain'_range_succ (· < ·) b).mpr (fun m _ => by omega)
  · rw [hup, List.range_succ_eq_map]
    rfl
  · rw [hup, List.range_succ, List.getLast?_concat]
  · rw [hdn, List.length_map, List.length_range]
  · rw [hdn, List.chain'_map]
    exact (List.chain'_range_succ _ b).mpr (fun m hm => by simp only [gt_iff_lt]; omega)
  · rw [hdn, List.head?_map, List.range_succ_eq_map]
    rfl
  · rw [hdn, List.range_succ, List.map_append, List.map_cons, List.map_nil,
      List.getLast?_concat, Nat.sub_self]
  · intro n
    rw [rampStream, rampStream, List.replicate_succ', List.flatten_append]
    simp

/-- Witness for C6 at the sketch's call `fullRangeTest(_, DAC_14_BIT)`,
i.e. `b = 16383`. -/
theorem C6_full_range_cycle_witness :
    16383 ≤ 65534 ∧
      (((fullRangeCodes true 16383).length = 16383 + 1 ∧
        (fullRangeCodes true 16383).Chain' (· < ·) ∧
        (fullRangeCodes true 16383).head? = some 0 ∧
        (fullRangeCodes true 16383).getLast? = some 16383) ∧
      ((fullRangeCodes false 16383).length = 16383 + 1 ∧
        (fullRangeCodes false 16383).Chain' (· > ·) ∧
        (fullRangeCodes false 16383).head? = some 16383 ∧
        (fullRangeCodes false 16383).getLast? = some 0) ∧
      (∀ n : ℕ, rampStream 16383 (n + 1) = rampStream 16383 n ++ fullRangeCodes true 16383)) :=
  ⟨by decide, C6_full_range_cycle 16383 (by decide)⟩

/-- C7: after `buildLUT(16, 16383)`, entry 0 equals `round(0.5 * 16383) = 8192`,
entry `16/4 = 4` equals full scale 16383 (`sin(pi/2) = 1`), and every entry is
at most `2^14 - 1 = 16383`. -/
theorem C7_sine_table :
    buildLUT TABLE_SIZE DAC_14_BIT 0 = 8192 ∧
      buildLUT TABLE_SIZE DAC_14_BIT 4 = 16383 ∧
      (∀ i : ℕ, buildLUT TABLE_SIZE DAC_14_BIT i ≤ 16383) := by
  refine ⟨?_, ?_, ?_⟩
  · simp only [buildLUT, TABLE_SIZE, DAC_14_BIT]
    norm_num
    rfl
  · simp only [buildLUT, TABLE_SIZE, DAC_14_BIT]
    push_cast
    rw [show (2 * Real.pi * 4 / 16 : ℝ) = Real.pi / 2 by ring, Real.sin_pi_div_two]
    norm_num
    rfl
  · intro i
    simp only [buildLUT]
    exact Nat.le_of_lt_succ (Nat.mod_lt _ (by norm_num))

/-- C8: from any in-range starting cursor, sixteen sine-playback iterations
return the cursor to its starting value; the cursor sequence is defined at
every step (total, hence non-terminating) and stays in range. -/
theorem C8_sine_cursor_period (c : ℕ) (hc : c < TABLE_SIZE) :
    sineStep^[TABLE_SIZE] c = c ∧
      (∀ n : ℕ, sineStep^[n + TABLE_SIZE] c = sineStep^[n] c) ∧
      (∀ n : ℕ, sineStep^[n] c < TABLE_SIZE) := by
  have hone : sineStep^[TABLE_SIZE] c = c := by
    simp only [TABLE_SIZE] at hc ⊢
    interval_cases c <;> decide
  have hstep : ∀ d, d < TABLE_SIZE → sineStep d < TABLE_SIZE := by
    intro d hd
    simp only [sineStep, TABLE_SIZE] at *
    split <;> omega
  refine ⟨hone, fun n => ?_, fun n => ?_⟩
  · rw [Function.iterate_add_apply, hone]
  · induction n with
    | zero => simpa using hc
    | succ k ih =>
      rw [Function.iterate_succ_apply']
      exact hstep _ ih

/-- Witness for C8 at starting cursor 5. -/
theorem C8_sine_cursor_period_witness :
    5 < TABLE_SIZE ∧
      (sineStep^[TABLE_SIZE] 5 = 5 ∧
        (∀ n : ℕ, sineStep^[n + TABLE_SIZE] 5 = sineStep^[n] 5) ∧
        (∀ n : ℕ, sineStep^[n] 5 < TABLE_SIZE)) :=
  ⟨by decide, C8_sine_cursor_period 5 (by decide)⟩

/-- The `val` flag of `quickChangeTest` holds exactly at odd iterations. -/
lemma quickChangeVal_mod (n : ℕ) : quickChangeVal n = decide (n % 2 = 1) := by
  induction n with
  | zero => rfl
  | succ k ih =>
    simp only [quickChangeVal]
    rw [ih]
    rcases Nat.mod_two_eq_zero_or_one k with h | h
    · have h2 : (k + 1) % 2 = 1 := by omega
      simp [h, h2]
    · have h2 : (k + 1) % 2 = 0 := by omega
      simp [h, h2]

/-- C9: `quickChangeTest(DAC_14_BIT)` emits, at every iteration `n` of its
non-returning loop (the emission is defined for all `n`), the minimum code 0
at even `n` and the maximum code `DAC_14_BIT = 2^14 - 1` at odd `n`; every
emission is one of the two extremes and no two consecutive emissions agree. -/
theorem C9_quick_change_alternates :
    DAC_14_BIT = 2 ^ 14 - 1 ∧
      (∀ n : ℕ, quickChangeEmit DAC_14_BIT n = if n % 2 = 1 then DAC_14_BIT else 0) ∧
      (∀ n : ℕ, quickChangeEmit DAC_14_BIT n = 0 ∨ quickChangeEmit DAC_14_BIT n = DAC_14_BIT) ∧
      (∀ n : ℕ, quickChangeEmit DAC_14_BIT (n + 1) ≠ quickChangeEmit DAC_14_BIT n) := by
  have hchar : ∀ n : ℕ, quickChangeEmit DAC_14_BIT n = if n % 2 = 1 then DAC_14_BIT else 0 := by
    intro n
    rw [quickChangeEmit, quickChangeVal_mod]
    rcases Nat.mod_two_eq_zero_or_one n with h | h <;> simp [h]
  refine ⟨by decide, hchar, fun n => ?_, fun n => ?_⟩
  · rw [hchar]
    split
    · right; rfl
    · left; rfl
  · rw [hchar, hchar]
    rcases Nat.mod_two_eq_zero_or_one n with h | h
    · have h2 : (n + 1) % 2 = 1 := by omega
      simp [h, h2, DAC_14_BIT]
    · have h2 : (n + 1) % 2 = 0 := by omega
      simp [h, h2, DAC_14_BIT]
